import Mathlib

/-!
Verification of `ConstDensityTabulatedThermo` (CSM-Offenburg/Cantera,
`include/cantera/thermo/ConstDensityTabulatedThermo.h`).

The repository supplies only the class declaration; the member-function
bodies live outside the sources at hand, so every operation below is
modelled from the specification of the unit (spec.md), while the data
model (the list of members, the empty default constructor) follows the
header, which is authoritative for them.  Machine doubles are modelled
as rationals, `std::vector<std::pair<doublereal,doublereal>>` as
`List (ℚ × ℚ)`, and the fallible table loader returns `Except`.
-/

/-- Cantera's universal gas constant (J / kmol / K), as a rational. -/
def GasConstant : ℚ := 83144621 / 10000

/-- Strict ascending order of the x-coordinates of a table: every entry's
x is smaller than every later entry's x. -/
def sortedByX (tab : List (ℚ × ℚ)) : Prop :=
  tab.Pairwise (fun a b => a.1 < b.1)

instance : DecidablePred sortedByX := fun tab =>
  inferInstanceAs (Decidable (tab.Pairwise _))

/-- Modelled from the spec (§4.1 Interpolate): piecewise-linear
interpolation over an x-sorted table, clamped to the boundary values
outside the tabulated range.  This is the common core of the missing
bodies of `interp_h` and `interp_s`. -/
def interp : List (ℚ × ℚ) → ℚ → ℚ
  | [], _ => 0
  | (_, y0) :: [], _ => y0
  | (x0, y0) :: (x1, y1) :: rest, x =>
    if x ≤ x0 then y0
    else if x ≤ x1 then y0 + (y1 - y0) * (x - x0) / (x1 - x0)
    else interp ((x1, y1) :: rest) x

/-- The state of a `ConstDensityTabulatedThermo` phase object: the class's
own members (`m_kk_mod`, `m_xlast`, `molefrac_h`, `molefrac_s`) together
with the inherited phase-wide state the spec says the unit reads and
writes (mole fractions, temperature, the dimensionless reference arrays,
density and mean molar mass).  `m_valid` is the cache validity flag of
spec §3 (Cached Reference State); the header declares no corresponding
member, so it exists only in this spec-faithful model. -/
structure PhaseState where
  /-- Phase-wide mole-fraction vector (base-class state). -/
  X : List ℚ
  /-- Current temperature (base-class state). -/
  T : ℚ
  /-- Current modifiable (active) species index. -/
  m_kk_mod : ℕ
  /-- Current intercalating species mole fraction (the cache key). -/
  m_xlast : ℚ
  /-- Modelled from the spec (§3): cache validity flag. -/
  m_valid : Bool
  /-- Dimensionless reference enthalpies h/(R T), one slot per species. -/
  h_RT : List ℚ
  /-- Dimensionless reference entropies s/R, one slot per species. -/
  s_R : List ℚ
  /-- Table of (mole fraction, molar enthalpy) pairs. -/
  molefrac_h : List (ℚ × ℚ)
  /-- Table of (mole fraction, molar entropy) pairs. -/
  molefrac_s : List (ℚ × ℚ)
  /-- Constant mass density (base-class state). -/
  density : ℚ
  /-- Mean molar mass of the phase (base-class state). -/
  mmw : ℚ
  /-- Per-species molecular weights (base-class state). -/
  mw : List ℚ
  deriving DecidableEq

/-- The active species' current mole fraction, read from the phase-wide
mole-fraction vector. -/
def activeX (st : PhaseState) : ℚ :=
  st.X.getD st.m_kk_mod 0

/-- Species thermodynamics interpolation function for enthalpy.
Modelled from the spec (§4.1): a point query on the enthalpy table. -/
def interp_h (st : PhaseState) (x : ℚ) : ℚ :=
  interp st.molefrac_h x

/-- Species thermodynamics interpolation function for entropy.
Modelled from the spec (§4.1): a point query on the entropy table. -/
def interp_s (st : PhaseState) (x : ℚ) : ℚ :=
  interp st.molefrac_s x

/-- Modelled from the spec (§4.2 Update): the reference-state update.
If the active mole fraction equals the cached `m_xlast` and the cache is
valid it returns immediately; otherwise it interpolates both tables at
the current mole fraction, writes the dimensionless forms h/(R T) and
s/R into the active species' slots, and refreshes the cache.  The second
component counts the table interpolations performed (0 or 2), the
call-count probe of spec §8. -/
def _updateThermo (st : PhaseState) : PhaseState × ℕ :=
  if st.m_valid = true ∧ activeX st = st.m_xlast then (st, 0)
  else
    ({ st with
        h_RT := st.h_RT.set st.m_kk_mod (interp_h st (activeX st) / (GasConstant * st.T)),
        s_R := st.s_R.set st.m_kk_mod (interp_s st (activeX st) / GasConstant),
        m_xlast := activeX st,
        m_valid := true }, 2)

/-- Normalization of a composition vector to unit sum (base-class
fraction bookkeeping, abstracted). -/
def normalizeFractions (v : List ℚ) : List ℚ :=
  if v.sum = 0 then v else v.map (fun c => c / v.sum)

/-- Mass fractions to mole fractions via the molecular weights
(base-class fraction bookkeeping, abstracted). -/
def massToMoles (mw y : List ℚ) : List ℚ :=
  normalizeFractions (List.zipWith (fun yi mi => yi / mi) y mw)

/-- Modelled from the spec (§4.3): delegates the mole-fraction
bookkeeping (normalization) to the base phase, then invalidates the
reference-state cache before returning. -/
def setMoleFractions (st : PhaseState) (x : List ℚ) : PhaseState :=
  { st with X := normalizeFractions x, m_valid := false }

/-- Modelled from the spec (§4.3): stores the mole fractions without
renormalization, then invalidates the cache. -/
def setMoleFractions_NoNorm (st : PhaseState) (x : List ℚ) : PhaseState :=
  { st with X := x, m_valid := false }

/-- Modelled from the spec (§4.3): delegates the mass-fraction
conversion to the base phase, then invalidates the cache. -/
def setMassFractions (st : PhaseState) (y : List ℚ) : PhaseState :=
  { st with X := massToMoles st.mw y, m_valid := false }

/-- Modelled from the spec (§4.3): as `setMassFractions` but without
renormalizing the input (the conversion to mole fractions still
normalizes); invalidates the cache. -/
def setMassFractions_NoNorm (st : PhaseState) (y : List ℚ) : PhaseState :=
  { st with X := massToMoles st.mw y, m_valid := false }

/-- Modelled from the spec (§4.3): derives mole fractions from the
concentration vector via the base phase, then invalidates the cache. -/
def setConcentrations (st : PhaseState) (conc : List ℚ) : PhaseState :=
  { st with X := normalizeFractions conc, m_valid := false }

/-- The base-class temperature setter.  The header overrides no
temperature setter, so it only stores the new temperature and leaves
the cache members of this class untouched. -/
def setTemperature (st : PhaseState) (t : ℚ) : PhaseState :=
  { st with T := t }

/-- Modelled from the spec (§4.3 StandardConcentration): a single
species-independent value, the constant molar density of the phase
(mass density over mean molar mass); the species index is ignored. -/
def standardConcentration (st : PhaseState) (_k : ℕ) : ℚ :=
  st.density / st.mmw

/-- Modelled from the spec (§4.3 ActivityConcentrations): writes
x_k * standardConcentration() into every species' output slot. -/
def getActivityConcentrations (st : PhaseState) : List ℚ :=
  st.X.map (fun xk => xk * standardConcentration st 0)

/-- Modelled from the spec (§4.3 ActivityCoefficients): writes 1.0 into
every species' output slot (ideal-solution assumption). -/
def getActivityCoefficients (st : PhaseState) : List ℚ :=
  st.X.map (fun _ => (1 : ℚ))

/-- The x-ordering used to sort tables on load. -/
def leX (a b : ℚ × ℚ) : Prop := a.1 ≤ b.1

instance : DecidableRel leX := fun a b =>
  inferInstanceAs (Decidable (a.1 ≤ b.1))

instance : IsTotal (ℚ × ℚ) leX := ⟨fun a b => le_total a.1 b.1⟩

instance : IsTrans (ℚ × ℚ) leX := ⟨fun _ _ _ h1 h2 => le_trans h1 h2⟩

/-- Sort a table by ascending x. -/
def sortByX (tab : List (ℚ × ℚ)) : List (ℚ × ℚ) :=
  tab.insertionSort leX

/-- Whether two adjacent entries of a (sorted) table share an x value. -/
def dupAdjacent : List (ℚ × ℚ) → Bool
  | a :: b :: r => a.1 == b.1 || dupAdjacent (b :: r)
  | _ => false

/-- Modelled from the spec (§4.1 Load, §7): loading one interpolation
table sorts it by x and fails with `InvalidTableError` when the table is
empty or, once sorted, has duplicate x values. -/
def loadTable (tab : List (ℚ × ℚ)) : Except String (List (ℚ × ℚ)) :=
  let s := sortByX tab
  if tab.isEmpty then Except.error "InvalidTableError"
  else if dupAdjacent s then Except.error "InvalidTableError"
  else Except.ok s

/-- Modelled from the spec (§6 construction-time configuration): phase
setup fixes the active species index and loads both tables, failing if
either table is invalid. -/
def initThermoXML (st : PhaseState) (kk : ℕ) (tabH tabS : List (ℚ × ℚ)) :
    Except String PhaseState :=
  match loadTable tabH, loadTable tabS with
  | Except.ok th, Except.ok ts =>
      Except.ok { st with m_kk_mod := kk, molefrac_h := th, molefrac_s := ts }
  | _, _ => Except.error "InvalidTableError"

/-- The default constructor of the header (line 47) has an empty body:
it initializes none of the class's scalar members, so `m_kk_mod`,
`m_xlast` (and the modelled cache validity flag) hold indeterminate
values, modelled here as parameters; the containers are
default-constructed empty and the base-class scalars are taken as 0. -/
def mkDefault (jkk : ℕ) (jx : ℚ) (jv : Bool) : PhaseState :=
  { X := [], T := 0, m_kk_mod := jkk, m_xlast := jx, m_valid := jv,
    h_RT := [], s_R := [], molefrac_h := [], molefrac_s := [],
    density := 0, mmw := 0, mw := [] }

/-- The example table of spec §8. -/
def exTable : List (ℚ × ℚ) := [(0, 100), (1/2, 200), (1, 250)]

/-- A concrete phase state over the example table of spec §8, used by the
witnesses. -/
def exState : PhaseState :=
  { X := [1/4, 3/4], T := 300, m_kk_mod := 0, m_xlast := 0, m_valid := false,
    h_RT := [0, 0], s_R := [0, 0], molefrac_h := exTable, molefrac_s := exTable,
    density := 2, mmw := 1, mw := [1, 1] }

theorem interp_cons_cons (x0 y0 x1 y1 : ℚ) (r : List (ℚ × ℚ)) (x : ℚ) :
    interp ((x0, y0) :: (x1, y1) :: r) x =
      if x ≤ x0 then y0
      else if x ≤ x1 then y0 + (y1 - y0) * (x - x0) / (x1 - x0)
      else interp ((x1, y1) :: r) x := rfl

theorem interp_singleton (x0 y0 x : ℚ) : interp [(x0, y0)] x = y0 := rfl

/-- Within a bracketing pair of consecutive table entries, `interp` is the
linear interpolation between them. -/
theorem interp_bracket (pre : List (ℚ × ℚ)) (x0 y0 x1 y1 : ℚ)
    (post : List (ℚ × ℚ)) (x : ℚ)
    (hs : sortedByX (pre ++ (x0, y0) :: (x1, y1) :: post))
    (h0 : x0 ≤ x) (h1 : x ≤ x1) :
    interp (pre ++ (x0, y0) :: (x1, y1) :: post) x
      = y0 + (y1 - y0) * (x - x0) / (x1 - x0) := by
  induction pre with
  | nil =>
    rw [List.nil_append, interp_cons_cons]
    by_cases hx : x ≤ x0
    · have hxx : x = x0 := le_antisymm hx h0
      rw [if_pos hx, hxx, sub_self, mul_zero, zero_div, add_zero]
    · rw [if_neg hx, if_pos h1]
  | cons hd tl ih =>
    obtain ⟨a, b⟩ := hd
    rw [List.cons_append] at hs ⊢
    have hc := List.pairwise_cons.mp hs
    have hrest : sortedByX (tl ++ (x0, y0) :: (x1, y1) :: post) := hc.2
    have hax0 : a < x0 :=
      hc.1 (x0, y0) (List.mem_append_right _ (List.mem_cons_self _ _))
    have hax : ¬ x ≤ a := not_le.mpr (lt_of_lt_of_le hax0 h0)
    cases tl with
    | nil =>
      rw [List.nil_append] at hrest ⊢
      rw [interp_cons_cons, if_neg hax]
      by_cases hx : x ≤ x0
      · have hxx : x = x0 := le_antisymm hx h0
        have hne : x0 - a ≠ 0 := sub_ne_zero.mpr (ne_of_gt hax0)
        rw [if_pos hx, hxx, sub_self, mul_zero, zero_div, add_zero,
          mul_div_assoc, div_self hne, mul_one]
        ring
      · rw [if_neg hx, interp_cons_cons, if_neg hx, if_pos h1]
    | cons c tl2 =>
      obtain ⟨c1, c2⟩ := c
      rw [List.cons_append] at hrest ⊢
      have hcx0 : c1 < x0 :=
        (List.pairwise_cons.mp hrest).1 (x0, y0)
          (List.mem_append_right _ (List.mem_cons_self _ _))
      have hcx : ¬ x ≤ c1 := not_le.mpr (lt_of_lt_of_le hcx0 h0)
      rw [interp_cons_cons, if_neg hax, if_neg hcx]
      exact ih hrest

/-- At a table entry's exact x, `interp` returns that entry's value. -/
theorem interp_mem (tab : List (ℚ × ℚ)) (xe ye : ℚ)
    (hs : sortedByX tab) (hmem : (xe, ye) ∈ tab) :
    interp tab xe = ye := by
  induction tab with
  | nil => cases hmem
  | cons hd tl ih =>
    obtain ⟨a, b⟩ := hd
    have hc := List.pairwise_cons.mp hs
    rcases List.mem_cons.mp hmem with heq | hmem2
    · injection heq with h1 h2
      subst h1; subst h2
      cases tl with
      | nil => exact interp_singleton _ _ _
      | cons c tl2 =>
        obtain ⟨c1, c2⟩ := c
        rw [interp_cons_cons, if_pos le_rfl]
    · have haxe : a < xe := hc.1 (xe, ye) hmem2
      cases tl with
      | nil => cases hmem2
      | cons c tl2 =>
        obtain ⟨c1, c2⟩ := c
        have hc2 := List.pairwise_cons.mp hc.2
        rw [interp_cons_cons, if_neg (not_le.mpr haxe)]
        rcases List.mem_cons.mp hmem2 with heq | hmem3
        · injection heq with h1 h2
          subst h1; subst h2
          have hne : xe - a ≠ 0 := sub_ne_zero.mpr (ne_of_gt haxe)
          rw [if_pos le_rfl, mul_div_assoc, div_self hne, mul_one]
          ring
        · have hcxe : c1 < xe := hc2.1 (xe, ye) hmem3
          rw [if_neg (not_le.mpr hcxe)]
          exact ih hc.2 hmem2

/-- Below the first entry's x, `interp` returns the first entry's value. -/
theorem interp_below (x0 y0 : ℚ) (r : List (ℚ × ℚ)) (x : ℚ) (hx : x ≤ x0) :
    interp ((x0, y0) :: r) x = y0 := by
  cases r with
  | nil => exact interp_singleton x0 y0 x
  | cons c r2 =>
    obtain ⟨c1, c2⟩ := c
    rw [interp_cons_cons, if_pos hx]

/-- When every tabulated x lies strictly below the query, `interp` returns
the last entry's value. -/
theorem interp_above_all (tab : List (ℚ × ℚ)) (h : tab ≠ []) (x : ℚ)
    (hall : ∀ p ∈ tab, p.1 < x) :
    interp tab x = (tab.getLast h).2 := by
  induction tab with
  | nil => exact absurd rfl h
  | cons hd tl ih =>
    obtain ⟨a, b⟩ := hd
    cases tl with
    | nil => exact interp_singleton a b x
    | cons c tl2 =>
      obtain ⟨c1, c2⟩ := c
      have hax : ¬ x ≤ a := not_le.mpr (hall (a, b) (List.mem_cons_self _ _))
      have hcx : ¬ x ≤ c1 :=
        not_le.mpr (hall (c1, c2) (List.mem_cons_of_mem _ (List.mem_cons_self _ _)))
      rw [interp_cons_cons, if_neg hax, if_neg hcx, List.getLast_cons_cons]
      exact ih (List.cons_ne_nil _ _) fun p hp => hall p (List.mem_cons_of_mem _ hp)

/-- In an x-sorted table every entry's x is at most the last entry's x. -/
theorem sorted_le_getLast (tab : List (ℚ × ℚ)) (h : tab ≠ [])
    (hs : sortedByX tab) :
    ∀ p ∈ tab, p.1 ≤ (tab.getLast h).1 := by
  induction tab with
  | nil => exact absurd rfl h
  | cons hd tl ih =>
    intro p hp
    have hc := List.pairwise_cons.mp hs
    cases tl with
    | nil =>
      have : p = hd := by simpa using hp
      subst this
      exact le_rfl
    | cons c tl2 =>
      rw [List.getLast_cons_cons]
      rcases List.mem_cons.mp hp with rfl | hp2
      · exact le_of_lt (hc.1 _ (List.getLast_mem (List.cons_ne_nil c tl2)))
      · exact ih (List.cons_ne_nil _ _) hc.2 p hp2

/-- Above the last entry's x of a sorted table, `interp` returns the last
entry's value. -/
theorem interp_above (tab : List (ℚ × ℚ)) (h : tab ≠ []) (x : ℚ)
    (hs : sortedByX tab) (hx : (tab.getLast h).1 < x) :
    interp tab x = (tab.getLast h).2 :=
  interp_above_all tab h x fun p hp =>
    lt_of_le_of_lt (sorted_le_getLast tab h hs p hp) hx

instance : IsTrans (ℚ × ℚ) (fun a b => a.1 < b.1) :=
  ⟨fun _ _ _ h1 h2 => lt_trans h1 h2⟩

theorem dupAdjacent_false_iff (l : List (ℚ × ℚ)) :
    dupAdjacent l = false ↔ l.Chain' (fun a b => a.1 ≠ b.1) := by
  induction l with
  | nil => simp [dupAdjacent]
  | cons a tl ih =>
    cases tl with
    | nil => simp [dupAdjacent]
    | cons b tl2 =>
      rw [List.chain'_cons, ← ih]
      show (a.1 == b.1 || dupAdjacent (b :: tl2)) = false ↔ _
      rw [Bool.or_eq_false_iff, beq_eq_false_iff_ne]

theorem chain'_lt_of_le_ne (l : List (ℚ × ℚ)) (h1 : l.Pairwise leX)
    (h2 : l.Chain' (fun a b => a.1 ≠ b.1)) :
    l.Chain' (fun a b => a.1 < b.1) := by
  induction l with
  | nil => exact List.chain'_nil
  | cons a tl ih =>
    cases tl with
    | nil => simp
    | cons b tl2 =>
      rw [List.chain'_cons] at h2 ⊢
      have hc := List.pairwise_cons.mp h1
      exact ⟨lt_of_le_of_ne (hc.1 b (List.mem_cons_self _ _)) h2.1,
        ih hc.2 h2.2⟩

/-- A ≤-sorted table with no adjacent duplicate x is strictly ascending. -/
theorem sortedByX_of_sorted_noDup (s : List (ℚ × ℚ)) (hs : s.Pairwise leX)
    (hd : dupAdjacent s = false) : sortedByX s :=
  List.chain'_iff_pairwise.mp
    (chain'_lt_of_le_ne s hs ((dupAdjacent_false_iff s).mp hd))

/-- On a ≤-sorted table, absence of adjacent duplicate x is the same as
all x values being distinct. -/
theorem dupAdjacent_false_iff_nodup (s : List (ℚ × ℚ)) (hs : s.Pairwise leX) :
    dupAdjacent s = false ↔ (s.map Prod.fst).Nodup := by
  show _ ↔ (s.map Prod.fst).Pairwise (· ≠ ·)
  constructor
  · intro hd
    have hlt := sortedByX_of_sorted_noDup s hs hd
    exact List.pairwise_map.mpr (hlt.imp fun h => ne_of_lt h)
  · intro hn
    exact (dupAdjacent_false_iff s).mpr (List.pairwise_map.mp hn).chain'

theorem sortByX_pairwise (tab : List (ℚ × ℚ)) : (sortByX tab).Pairwise leX :=
  List.sorted_insertionSort leX tab

theorem sortByX_perm (tab : List (ℚ × ℚ)) : (sortByX tab).Perm tab :=
  List.perm_insertionSort leX tab

theorem exTable_sortedByX : sortedByX exTable := by
  norm_num [sortedByX, exTable, List.pairwise_cons]

/-- C1: for every valid table (non-empty, strictly ascending x) and every
query x between two bracketing entries, `interp_h` and `interp_s` return
the linear interpolation between those entries; at an entry's exact x they
return that entry's value; on the example table the result at x = 1/4 is
150 and at x = 1/2 it is exactly 200. -/
theorem interp_linear_within_range :
    (∀ (st : PhaseState) (pre post : List (ℚ × ℚ)) (x0 y0 x1 y1 x : ℚ),
        st.molefrac_h = pre ++ (x0, y0) :: (x1, y1) :: post →
        sortedByX st.molefrac_h → x0 ≤ x → x ≤ x1 →
        interp_h st x = y0 + (y1 - y0) * (x - x0) / (x1 - x0)) ∧
    (∀ (st : PhaseState) (pre post : List (ℚ × ℚ)) (x0 y0 x1 y1 x : ℚ),
        st.molefrac_s = pre ++ (x0, y0) :: (x1, y1) :: post →
        sortedByX st.molefrac_s → x0 ≤ x → x ≤ x1 →
        interp_s st x = y0 + (y1 - y0) * (x - x0) / (x1 - x0)) ∧
    (∀ (st : PhaseState) (xe ye : ℚ),
        sortedByX st.molefrac_h → (xe, ye) ∈ st.molefrac_h →
        interp_h st xe = ye) ∧
    (∀ (st : PhaseState) (xe ye : ℚ),
        sortedByX st.molefrac_s → (xe, ye) ∈ st.molefrac_s →
        interp_s st xe = ye) ∧
    (∀ st : PhaseState, st.molefrac_h = exTable →
        interp_h st (1/4) = 150 ∧ interp_h st (1/2) = 200) := by
  refine ⟨?_, ?_, ?_, ?_, ?_⟩
  · intro st pre post x0 y0 x1 y1 x heq hs h0 h1
    rw [interp_h, heq]
    rw [heq] at hs
    exact interp_bracket pre x0 y0 x1 y1 post x hs h0 h1
  · intro st pre post x0 y0 x1 y1 x heq hs h0 h1
    rw [interp_s, heq]
    rw [heq] at hs
    exact interp_bracket pre x0 y0 x1 y1 post x hs h0 h1
  · intro st xe ye hs hmem
    exact interp_mem st.molefrac_h xe ye hs hmem
  · intro st xe ye hs hmem
    exact interp_mem st.molefrac_s xe ye hs hmem
  · intro st heq
    rw [interp_h, interp_h, heq]
    constructor <;> norm_num [interp, exTable]

/-- Witness for C1 at the example table. -/
theorem interp_linear_within_range_witness :
    interp_h exState (1/4) = 100 + (200 - 100) * (1/4 - 0) / (1/2 - 0) ∧
    interp_h exState (1/2) = 200 :=
  ⟨interp_linear_within_range.1 exState [] [(1, 250)] 0 100 (1/2) 200 (1/4)
      rfl exTable_sortedByX (by norm_num) (by norm_num),
    interp_linear_within_range.2.2.1 exState (1/2) 200 exTable_sortedByX
      (by simp [exState, exTable])⟩

/-- C2: for a valid table and a query strictly below the minimum or
strictly above the maximum tabulated x, `interp_h` and `interp_s` return
exactly the nearest boundary entry's value, however far out of range the
query is; the interpolation model is a total function, so out-of-range
queries never signal an error. -/
theorem interp_clamped_out_of_range :
    (∀ (st : PhaseState) (x0 y0 : ℚ) (r : List (ℚ × ℚ)) (x : ℚ),
        st.molefrac_h = (x0, y0) :: r → x < x0 → interp_h st x = y0) ∧
    (∀ (st : PhaseState) (x0 y0 : ℚ) (r : List (ℚ × ℚ)) (x : ℚ),
        st.molefrac_s = (x0, y0) :: r → x < x0 → interp_s st x = y0) ∧
    (∀ (st : PhaseState) (x : ℚ) (h : st.molefrac_h ≠ []),
        sortedByX st.molefrac_h → (st.molefrac_h.getLast h).1 < x →
        interp_h st x = (st.molefrac_h.getLast h).2) ∧
    (∀ (st : PhaseState) (x : ℚ) (h : st.molefrac_s ≠ []),
        sortedByX st.molefrac_s → (st.molefrac_s.getLast h).1 < x →
        interp_s st x = (st.molefrac_s.getLast h).2) := by
  refine ⟨?_, ?_, ?_, ?_⟩
  · intro st x0 y0 r x heq hx
    rw [interp_h, heq]
    exact interp_below x0 y0 r x (le_of_lt hx)
  · intro st x0 y0 r x heq hx
    rw [interp_s, heq]
    exact interp_below x0 y0 r x (le_of_lt hx)
  · intro st x h hs hx
    exact interp_above st.molefrac_h h x hs hx
  · intro st x h hs hx
    exact interp_above st.molefrac_s h x hs hx

/-- Witness for C2 at the example table. -/
theorem interp_clamped_out_of_range_witness :
    interp_h exState (-1) = 100 ∧
    interp_h exState 2 = (exState.molefrac_h.getLast (List.cons_ne_nil _ _)).2 :=
  ⟨interp_clamped_out_of_range.1 exState 0 100 [(1/2, 200), (1, 250)] (-1)
      rfl (by norm_num),
    interp_clamped_out_of_range.2.2.1 exState 2 (List.cons_ne_nil _ _)
      exTable_sortedByX (by norm_num [exState, exTable])⟩

/-- C3: running the reference-state update twice with no intervening
composition or temperature change is idempotent: the second call returns
the same state unchanged and performs zero table interpolations (the
cache key `m_xlast` matches and the cache is valid, so it returns
immediately). -/
theorem updateThermo_idempotent (st : PhaseState) :
    _updateThermo ((_updateThermo st).1) = ((_updateThermo st).1, 0) := by
  by_cases hg : st.m_valid = true ∧ activeX st = st.m_xlast
  · simp only [_updateThermo, if_pos hg]
  · simp only [_updateThermo, if_neg hg]
    refine if_pos ⟨?_, ?_⟩ <;> simp [activeX]

/-- C4: every composition setter leaves the cache invalid and the next
reference-state update recomputes from the tables (two interpolations),
for every state and every argument, in particular when the active
species' mole fraction is numerically unchanged. -/
theorem setters_invalidate_cache :
    (∀ (st : PhaseState) (x : List ℚ),
        (setMoleFractions st x).m_valid = false ∧
        (_updateThermo (setMoleFractions st x)).2 = 2) ∧
    (∀ (st : PhaseState) (x : List ℚ),
        (setMoleFractions_NoNorm st x).m_valid = false ∧
        (_updateThermo (setMoleFractions_NoNorm st x)).2 = 2) ∧
    (∀ (st : PhaseState) (y : List ℚ),
        (setMassFractions st y).m_valid = false ∧
        (_updateThermo (setMassFractions st y)).2 = 2) ∧
    (∀ (st : PhaseState) (y : List ℚ),
        (setMassFractions_NoNorm st y).m_valid = false ∧
        (_updateThermo (setMassFractions_NoNorm st y)).2 = 2) ∧
    (∀ (st : PhaseState) (conc : List ℚ),
        (setConcentrations st conc).m_valid = false ∧
        (_updateThermo (setConcentrations st conc)).2 = 2) := by
  refine ⟨fun st x => ⟨rfl, ?_⟩, fun st x => ⟨rfl, ?_⟩, fun st y => ⟨rfl, ?_⟩,
    fun st y => ⟨rfl, ?_⟩, fun st conc => ⟨rfl, ?_⟩⟩ <;>
  · rw [_updateThermo, if_neg]
    rintro ⟨h, -⟩
    cases h

/-- C9: the active species index `m_kk_mod` is a frame of every operation
after setup: all five composition setters, the temperature setter and the
reference-state update leave it unchanged. -/
theorem m_kk_mod_immutable :
    (∀ (st : PhaseState) (x : List ℚ),
        (setMoleFractions st x).m_kk_mod = st.m_kk_mod) ∧
    (∀ (st : PhaseState) (x : List ℚ),
        (setMoleFractions_NoNorm st x).m_kk_mod = st.m_kk_mod) ∧
    (∀ (st : PhaseState) (y : List ℚ),
        (setMassFractions st y).m_kk_mod = st.m_kk_mod) ∧
    (∀ (st : PhaseState) (y : List ℚ),
        (setMassFractions_NoNorm st y).m_kk_mod = st.m_kk_mod) ∧
    (∀ (st : PhaseState) (conc : List ℚ),
        (setConcentrations st conc).m_kk_mod = st.m_kk_mod) ∧
    (∀ (st : PhaseState) (t : ℚ),
        (setTemperature st t).m_kk_mod = st.m_kk_mod) ∧
    (∀ st : PhaseState, ((_updateThermo st).1).m_kk_mod = st.m_kk_mod) := by
  refine ⟨fun st x => rfl, fun st x => rfl, fun st y => rfl, fun st y => rfl,
    fun st conc => rfl, fun st t => rfl, fun st => ?_⟩
  by_cases hg : st.m_valid = true ∧ activeX st = st.m_xlast
  · rw [_updateThermo, if_pos hg]
  · rw [_updateThermo, if_neg hg]

/-- C10: after the header's empty default constructor nothing initializes
the cache members, so their contents are indeterminate: there is a junk
initialization under which the very first reference-state update
spuriously hits the cache and performs no interpolation, and another
under which it recomputes — the class gives no guarantee either way. -/
theorem default_ctor_cache_indeterminate :
    (∃ (jkk : ℕ) (jx : ℚ) (jv : Bool),
        (_updateThermo (mkDefault jkk jx jv)).2 = 0) ∧
    (∃ (jkk : ℕ) (jx : ℚ) (jv : Bool),
        (_updateThermo (mkDefault jkk jx jv)).2 = 2) := by
  constructor
  · refine ⟨0, 0, true, ?_⟩
    rw [_updateThermo, if_pos ⟨rfl, rfl⟩]
  · refine ⟨0, 0, false, ?_⟩
    rw [_updateThermo, if_neg]
    rintro ⟨h, -⟩
    cases h

/-- C5: the cache is keyed on the mole fraction only, so after an update
at T = 300 followed by a temperature change to 600 the next update is a
spurious cache hit: it performs no interpolation and leaves `h_RT` holding
150/(R·300), which differs from the value 150/(R·600) the claim requires
at the new temperature.  This exhibits the temperature-staleness the
claim denies. -/
theorem updateThermo_stale_after_temperature_change :
    (_updateThermo (setTemperature ((_updateThermo exState).1) 600)).2 = 0 ∧
    ((_updateThermo (setTemperature ((_updateThermo exState).1) 600)).1).h_RT
      = [150 / (GasConstant * 300), 0] ∧
    (150 : ℚ) / (GasConstant * 300) ≠ 150 / (GasConstant * 600) := by
  have h1 : _updateThermo exState =
      ({ exState with
          h_RT := [150 / (GasConstant * 300), 0],
          s_R := [150 / GasConstant, 0],
          m_xlast := 1/4, m_valid := true }, 2) := by
    rw [_updateThermo, if_neg]
    · have hx : activeX exState = 1/4 := by norm_num [activeX, exState]
      have hh : interp_h exState (1/4) = 150 := by
        norm_num [interp_h, interp, exState, exTable]
      have hs : interp_s exState (1/4) = 150 := by
        norm_num [interp_s, interp, exState, exTable]
      rw [hx, hh, hs]
      rfl
    · rintro ⟨h, -⟩
      cases h
  rw [h1]
  refine ⟨?_, ?_, ?_⟩
  · rw [setTemperature, _updateThermo, if_pos ⟨rfl, by norm_num [activeX, exState]⟩]
  · rw [setTemperature, _updateThermo, if_pos ⟨rfl, by norm_num [activeX, exState]⟩]
  · intro h
    rw [div_eq_div_iff (by norm_num [GasConstant]) (by norm_num [GasConstant])] at h
    norm_num [GasConstant] at h

/-- C6: loading a table fails with `InvalidTableError` exactly when the
table is empty or its x values contain a duplicate; on success the stored
table is a permutation of the input sorted strictly ascending by x, and
phase initialization stores two such tables. -/
theorem loadTable_invalid_iff :
    (∀ tab : List (ℚ × ℚ),
        loadTable tab = Except.error "InvalidTableError" ↔
          tab = [] ∨ ¬ (tab.map Prod.fst).Nodup) ∧
    (∀ tab res : List (ℚ × ℚ), loadTable tab = Except.ok res →
        res.Perm tab ∧ sortedByX res) ∧
    (∀ (st st' : PhaseState) (kk : ℕ) (tabH tabS : List (ℚ × ℚ)),
        initThermoXML st kk tabH tabS = Except.ok st' →
        sortedByX st'.molefrac_h ∧ sortedByX st'.molefrac_s ∧
          st'.m_kk_mod = kk) := by
  have hok : ∀ tab res : List (ℚ × ℚ), loadTable tab = Except.ok res →
      res.Perm tab ∧ sortedByX res := by
    intro tab res h
    rw [loadTable] at h
    by_cases he : tab.isEmpty = true
    · rw [if_pos he] at h; cases h
    · rw [if_neg he] at h
      by_cases hd : dupAdjacent (sortByX tab) = true
      · rw [if_pos hd] at h; cases h
      · rw [if_neg hd] at h
        injection h with h
        subst h
        exact ⟨sortByX_perm tab,
          sortedByX_of_sorted_noDup _ (sortByX_pairwise tab)
            (Bool.not_eq_true _ ▸ hd)⟩
  refine ⟨?_, hok, ?_⟩
  · intro tab
    have hnd : ((sortByX tab).map Prod.fst).Nodup ↔ (tab.map Prod.fst).Nodup :=
      ((sortByX_perm tab).map Prod.fst).nodup_iff
    by_cases he : tab = []
    · subst he
      simp [loadTable]
    · have he' : ¬ tab.isEmpty = true := by simp [List.isEmpty_iff, he]
      by_cases hd : dupAdjacent (sortByX tab) = true
      · have hdup : ¬ (tab.map Prod.fst).Nodup := by
          rw [← hnd]
          intro hn
          rw [← dupAdjacent_false_iff_nodup _ (sortByX_pairwise tab)] at hn
          rw [hn] at hd
          cases hd
        rw [loadTable]
        rw [if_neg he', if_pos hd]
        simp [he, hdup]
      · have hd' : dupAdjacent (sortByX tab) = false := Bool.not_eq_true _ ▸ hd
        have hnodup : (tab.map Prod.fst).Nodup :=
          hnd.mp ((dupAdjacent_false_iff_nodup _ (sortByX_pairwise tab)).mp hd')
        rw [loadTable, if_neg he', if_neg hd]
        simp [he, hnodup]
  · intro st st' kk tabH tabS h
    rw [initThermoXML] at h
    rcases hH : loadTable tabH with eH | rH <;> rw [hH] at h
    · cases h
    · rcases hS : loadTable tabS with eS | rS <;> rw [hS] at h
      · cases h
      · injection h with h
        subst h
        exact ⟨(hok tabH rH hH).2, (hok tabS rS hS).2, rfl⟩

/-- Witness for C6: loading the unsorted duplicate-free table
[(1,5),(0,3)] succeeds with the x-sorted permutation [(0,3),(1,5)]. -/
theorem loadTable_invalid_iff_witness :
    ([((0 : ℚ), (3 : ℚ)), (1, 5)]).Perm [((1 : ℚ), (5 : ℚ)), (0, 3)] ∧
    sortedByX [((0 : ℚ), (3 : ℚ)), (1, 5)] :=
  loadTable_invalid_iff.2.1 [(1, 5), (0, 3)] [(0, 3), (1, 5)]
    (by norm_num [loadTable, sortByX, List.insertionSort, List.orderedInsert,
      leX, dupAdjacent])

/-- C7: for every state with a valid composition summing to 1 and every
in-range species index k, `getActivityConcentrations` writes
moleFraction k times the standard concentration into slot k, and
`standardConcentration` is the same species-independent value (the
constant molar density over the mean molar mass) for every index. -/
theorem activity_concentrations_spec (st : PhaseState)
    (hsum : st.X.sum = 1) (k : ℕ) (hk : k < st.X.length) :
    (getActivityConcentrations st).get? k
      = some (st.X.getD k 0 * standardConcentration st k) ∧
    (∀ j j2 : ℕ, standardConcentration st j = standardConcentration st j2) ∧
    standardConcentration st k = st.density / st.mmw := by
  refine ⟨?_, fun j j2 => rfl, rfl⟩
  rw [getActivityConcentrations, List.get?_map, List.get?_eq_get hk]
  rw [List.getD_eq_get? , List.get?_eq_get hk]
  rfl

/-- Witness for C7 at the example state. -/
theorem activity_concentrations_spec_witness :
    (getActivityConcentrations exState).get? 0
      = some (exState.X.getD 0 0 * standardConcentration exState 0) ∧
    (∀ j j2 : ℕ, standardConcentration exState j = standardConcentration exState j2) ∧
    standardConcentration exState 0 = exState.density / exState.mmw :=
  activity_concentrations_spec exState (by norm_num [exState]) 0
    (by norm_num [exState])

/-- C8: `getActivityCoefficients` writes exactly 1 into every species'
slot, for every reachable state: the output is the all-ones vector of
length equal to the species count. -/
theorem activity_coefficients_all_one (st : PhaseState) :
    getActivityCoefficients st = List.replicate st.X.length 1 := by
  rw [getActivityCoefficients]
  induction st.X with
  | nil => rfl
  | cons a tl ih => simp [List.replicate_succ, ih]

